import Mathlib

/-!
Verification development for the cluster-agreement evaluator
(ClusteringAgreementEvaluator) specified for the `ML-Webinar` repository.

The repository's own notebook invokes library scoring routines
(`metrics.adjusted_rand_score`, `metrics.adjusted_mutual_info_score`), and the
specification describes the evaluator component behind those calls:
`pairCountAgreement` (a chance-corrected pair-counting statistic) and
`mutualInformationAgreement` (a chance-corrected mutual-information
statistic), together with their error contract
(`IncompatibleAssignmentsError`, `DegenerateInputError`).

Since the evaluator itself is not part of the repository's source tree (the
notebook only calls it), the definitions below are modelled from the
specification's own words, as marked in their doc comments.
-/

/-- Modelled from the spec: the error kinds of the evaluator.  The evaluator
code is not in the repository's source tree; the spec's §7 names exactly two
error kinds: `IncompatibleAssignmentsError` (lengths differ) and
`DegenerateInputError` (fewer than 2 samples, or a normalization denominator
of zero). -/
inductive AgreementError where
  | incompatibleAssignments
  | degenerateInput
deriving DecidableEq, Repr

/-- A LabelAssignment: an ordered sequence of integers, one cluster label per
sample (spec §3). -/
abbrev LabelAssignment := List ℤ

/-- All unordered sample-index pairs `(i, j)` with `i < j < n`: the set whose
cardinality is the total pair count `c = n·(n−1)/2` of spec §4.1. -/
def indexPairs (n : ℕ) : Finset (ℕ × ℕ) :=
  (Finset.range n ×ˢ Finset.range n).filter fun p => p.1 < p.2

/-- The sample pairs placed in the same cluster by assignment `A`. -/
def samePairs (A : LabelAssignment) : Finset (ℕ × ℕ) :=
  (indexPairs A.length).filter fun p => A.getD p.1 0 = A.getD p.2 0

/-- The sample pairs placed in the same cluster under both `A` and `B`
(the quantity `a` of spec §4.1). -/
def bothSamePairs (A B : LabelAssignment) : Finset (ℕ × ℕ) :=
  (indexPairs A.length).filter fun p =>
    A.getD p.1 0 = A.getD p.2 0 ∧ B.getD p.1 0 = B.getD p.2 0

/-- The sample pairs placed in different clusters under both `A` and `B`
(the "pairs agreeing on difference" of spec §4.1). -/
def bothDifferentPairs (A B : LabelAssignment) : Finset (ℕ × ℕ) :=
  (indexPairs A.length).filter fun p =>
    ¬A.getD p.1 0 = A.getD p.2 0 ∧ ¬B.getD p.1 0 = B.getD p.2 0

/-- Modelled from the spec: the raw (uncorrected) Rand statistic of §4.1,
`(a + pairs-agreeing-on-difference) / c`. -/
def rawRandStatistic (A B : LabelAssignment) : ℚ :=
  (((bothSamePairs A B).card : ℚ) + ((bothDifferentPairs A B).card : ℚ)) /
    ((indexPairs A.length).card : ℚ)

/-- Expected value of the same-in-both pair count under the generalized
hypergeometric model of random labeling, computed from the margins
(spec §4.1): `s · t / c` where `s`, `t` count the same-cluster pairs of each
assignment. -/
def expectedIndex (A B : LabelAssignment) : ℚ :=
  ((samePairs A).card : ℚ) * ((samePairs B).card : ℚ) /
    ((indexPairs A.length).card : ℚ)

/-- Maximum possible value of the same-in-both pair count used by the
chance-correction normalizer (spec §4.1): the average `(s + t) / 2`. -/
def maxIndex (A B : LabelAssignment) : ℚ :=
  (((samePairs A).card : ℚ) + ((samePairs B).card : ℚ)) / 2

/-- Modelled from the spec: `pairCountAgreement` (spec §4.1), the
chance-corrected pair-counting agreement score behind the notebook's
`adjusted_rand_score` call.  Guards, per spec §4.1/§7/§8/§9: mismatched
lengths signal `IncompatibleAssignmentsError`; fewer than 2 samples or a zero
chance-correction denominator signal `DegenerateInputError` (the spec's §9
records that a zero normalizer is treated as an explicit error, never a
fallback value). -/
def pairCountAgreement (A B : LabelAssignment) : Except AgreementError ℚ :=
  if A.length ≠ B.length then .error .incompatibleAssignments
  else if A.length < 2 then .error .degenerateInput
  else if maxIndex A B - expectedIndex A B = 0 then .error .degenerateInput
  else .ok ((((bothSamePairs A B).card : ℚ) - expectedIndex A B) /
      (maxIndex A B - expectedIndex A B))

/-- Two assignments induce identical partitions of the samples up to
relabeling: any two sample positions share a label in `A` exactly when they
share a label in `B`. -/
def samePartition (A B : LabelAssignment) : Prop :=
  ∀ i j, i < A.length → j < A.length →
    (A.getD i 0 = A.getD j 0 ↔ B.getD i 0 = B.getD j 0)

/-- Contingency table cell (spec §4.1): the number of samples assigned label
`a` in `A` and label `b` in `B`. -/
def contingency (A B : LabelAssignment) (a b : ℤ) : ℕ :=
  (A.zip B).count (a, b)

/-- Empirical marginal probability of label `a` in assignment `A`. -/
def marginalProb (A : LabelAssignment) (a : ℤ) : ℚ :=
  (A.count a : ℚ) / (A.length : ℚ)

/-- Empirical joint probability of the label pair `(a, b)` across the two
assignments. -/
def jointProb (A B : LabelAssignment) (a b : ℤ) : ℚ :=
  (contingency A B a b : ℚ) / (A.length : ℚ)

/-- Entropy of the empirical label distribution of `A`, written over an
abstract logarithm `log : ℚ → K` (the source computes with floating-point
`log`; every `log` argument here is an exact rational). -/
def entropy (K : Type) [LinearOrderedField K] (log : ℚ → K)
    (A : LabelAssignment) : K :=
  ∑ a ∈ A.toFinset, (marginalProb A a : K) * log (1 / marginalProb A a)

/-- Mutual information between the two empirical label distributions
(spec §4.2), over an abstract logarithm; empty cells contribute zero. -/
def mutualInfo (K : Type) [LinearOrderedField K] (log : ℚ → K)
    (A B : LabelAssignment) : K :=
  ∑ a ∈ A.toFinset, ∑ b ∈ B.toFinset,
    if contingency A B a b = 0 then 0
    else (jointProb A B a b : K) *
      log (jointProb A B a b / (marginalProb A a * marginalProb B b))

/-- The multiset of row sums of the contingency table of `A` (one count per
distinct label), from which the spec's null model computes expectations. -/
def rowMargins (A : LabelAssignment) : Multiset ℕ :=
  A.toFinset.val.map fun a => A.count a

/-- Modelled from the spec: `mutualInformationAgreement` (spec §4.2), the
chance-corrected mutual-information score behind the notebook's
`adjusted_mutual_info_score` call.  The spec gives no closed formula for the
expected mutual information under the random-labeling null model, only that
it is computed from the contingency margins; it is therefore taken as a
parameter `emi` of the margins and the sample count.  Guards, per spec
§4.2/§7: mismatched lengths signal `IncompatibleAssignmentsError`; an
all-same-label side (zero entropy) and a zero normalization denominator
signal `DegenerateInputError`. -/
def mutualInformationAgreement (K : Type) [LinearOrderedField K]
    [DecidableEq K] (log : ℚ → K) (emi : Multiset ℕ → Multiset ℕ → ℕ → K)
    (A B : LabelAssignment) : Except AgreementError K :=
  if A.length ≠ B.length then .error .incompatibleAssignments
  else if A.toFinset.card ≤ 1 ∨ B.toFinset.card ≤ 1 then
    .error .degenerateInput
  else if (entropy K log A + entropy K log B) / 2 -
      emi (rowMargins A) (rowMargins B) A.length = 0 then
    .error .degenerateInput
  else .ok ((mutualInfo K log A B - emi (rowMargins A) (rowMargins B) A.length) /
      ((entropy K log A + entropy K log B) / 2 -
        emi (rowMargins A) (rowMargins B) A.length))

/-- Modelled from the spec: a fitted clustering model, as consumed by the
notebook's evaluation step.  The fitting itself (external library code) is
out of scope; per the notebook, a model fitted on the matrix `X` exposes
`labels_`, one integer cluster label per sample of `X`. -/
structure FittedModel where
  labels_ : List ℤ
deriving DecidableEq

/-- All unordered pairs of elements of a list, in the order produced by
`itertools.combinations(l, 2)` in the notebook's pairwise loop. -/
def pairsOf {α : Type} : List α → List (α × α)
  | [] => []
  | x :: xs => (xs.map fun y => (x, y)) ++ pairsOf xs

/-- The notebook's evaluation step (cell 52): for every unordered pair of
fitted models, compute both agreement scores on their label assignments. -/
def pairwiseAgreementReport (K : Type) [LinearOrderedField K] [DecidableEq K]
    (log : ℚ → K) (emi : Multiset ℕ → Multiset ℕ → ℕ → K)
    (models : List FittedModel) :
    List (Except AgreementError ℚ × Except AgreementError K) :=
  (pairsOf models).map fun p =>
    (pairCountAgreement p.1.labels_ p.2.labels_,
     mutualInformationAgreement K log emi p.1.labels_ p.2.labels_)

/-! ### Basic facts about the pair-counting statistics -/

theorem mem_indexPairs {n : ℕ} {p : ℕ × ℕ} :
    p ∈ indexPairs n ↔ p.1 < n ∧ p.2 < n ∧ p.1 < p.2 := by
  simp [indexPairs, Finset.mem_filter, Finset.mem_product, Finset.mem_range,
    and_assoc]

theorem samePairs_subset (A : LabelAssignment) :
    samePairs A ⊆ indexPairs A.length := Finset.filter_subset _ _

theorem bothSamePairs_inter (A B : LabelAssignment) (h : A.length = B.length) :
    bothSamePairs A B = samePairs A ∩ samePairs B := by
  ext p
  simp only [bothSamePairs, samePairs, Finset.mem_filter, Finset.mem_inter, h]
  tauto

theorem card_bothSame_le_left (A B : LabelAssignment) (h : A.length = B.length) :
    (bothSamePairs A B).card ≤ (samePairs A).card := by
  rw [bothSamePairs_inter A B h]
  exact Finset.card_le_card Finset.inter_subset_left

theorem card_bothSame_le_right (A B : LabelAssignment)
    (h : A.length = B.length) :
    (bothSamePairs A B).card ≤ (samePairs B).card := by
  rw [bothSamePairs_inter A B h]
  exact Finset.card_le_card Finset.inter_subset_right

theorem card_samePairs_le (A : LabelAssignment) :
    (samePairs A).card ≤ (indexPairs A.length).card :=
  Finset.card_le_card (samePairs_subset A)

theorem card_union_bound (A B : LabelAssignment) (h : A.length = B.length) :
    (samePairs A).card + (samePairs B).card ≤
      (indexPairs A.length).card + (bothSamePairs A B).card := by
  rw [bothSamePairs_inter A B h]
  have h1 : (samePairs A ∪ samePairs B).card ≤ (indexPairs A.length).card := by
    apply Finset.card_le_card
    intro p hp
    rcases Finset.mem_union.mp hp with h2 | h2
    · exact samePairs_subset A h2
    · have h3 := samePairs_subset B h2
      rwa [← h] at h3
  have h2 := Finset.card_union_add_card_inter (samePairs A) (samePairs B)
  omega

theorem pairCountAgreement_ok {A B : LabelAssignment} {r : ℚ}
    (h : pairCountAgreement A B = .ok r) :
    A.length = B.length ∧ 2 ≤ A.length ∧
      maxIndex A B - expectedIndex A B ≠ 0 ∧
      r = (((bothSamePairs A B).card : ℚ) - expectedIndex A B) /
        (maxIndex A B - expectedIndex A B) := by
  rw [pairCountAgreement] at h
  split_ifs at h with h1 h2 h3
  all_goals try exact (Except.noConfusion h)
  exact ⟨not_not.mp h1, by omega, h3, by simpa using h.symm⟩

theorem expectedIndex_le_maxIndex (A B : LabelAssignment)
    (h : A.length = B.length) (hn : 2 ≤ A.length) :
    expectedIndex A B ≤ maxIndex A B := by
  have hc : 0 < ((indexPairs A.length).card : ℚ) := by
    have h1 : (0, 1) ∈ indexPairs A.length :=
      mem_indexPairs.mpr ⟨by omega, by omega, by omega⟩
    have h2 := Finset.card_pos.mpr ⟨_, h1⟩
    exact_mod_cast h2
  have hs : ((samePairs A).card : ℚ) ≤ ((indexPairs A.length).card : ℚ) := by
    exact_mod_cast card_samePairs_le A
  have ht : ((samePairs B).card : ℚ) ≤ ((indexPairs A.length).card : ℚ) := by
    have h1 := card_samePairs_le B
    rw [← h] at h1
    exact_mod_cast h1
  have hs0 : (0 : ℚ) ≤ ((samePairs A).card : ℚ) := by positivity
  have ht0 : (0 : ℚ) ≤ ((samePairs B).card : ℚ) := by positivity
  rw [expectedIndex, maxIndex, div_le_div_iff hc (by norm_num)]
  nlinarith

theorem denominator_pos {A B : LabelAssignment} {r : ℚ}
    (h : pairCountAgreement A B = .ok r) :
    0 < maxIndex A B - expectedIndex A B := by
  obtain ⟨hlen, hn, hne, -⟩ := pairCountAgreement_ok h
  have hle := expectedIndex_le_maxIndex A B hlen hn
  have h0 : 0 ≤ maxIndex A B - expectedIndex A B := by linarith
  exact lt_of_le_of_ne h0 (Ne.symm hne)

theorem pairCountAgreement_le_one {A B : LabelAssignment} {r : ℚ}
    (h : pairCountAgreement A B = .ok r) : r ≤ 1 := by
  obtain ⟨hlen, hn, hne, hr⟩ := pairCountAgreement_ok h
  have hdpos := denominator_pos h
  rw [hr, div_le_one hdpos]
  have ha1 : ((bothSamePairs A B).card : ℚ) ≤ ((samePairs A).card : ℚ) := by
    exact_mod_cast card_bothSame_le_left A B hlen
  have ha2 : ((bothSamePairs A B).card : ℚ) ≤ ((samePairs B).card : ℚ) := by
    exact_mod_cast card_bothSame_le_right A B hlen
  rw [maxIndex]
  linarith

theorem neg_one_le_pairCountAgreement {A B : LabelAssignment} {r : ℚ}
    (h : pairCountAgreement A B = .ok r) : -1 ≤ r := by
  obtain ⟨hlen, hn, hne, hr⟩ := pairCountAgreement_ok h
  have hdpos := denominator_pos h
  have hc : 0 < ((indexPairs A.length).card : ℚ) := by
    have h1 : (0, 1) ∈ indexPairs A.length :=
      mem_indexPairs.mpr ⟨by omega, by omega, by omega⟩
    have h2 := Finset.card_pos.mpr ⟨_, h1⟩
    exact_mod_cast h2
  have hs : ((samePairs A).card : ℚ) ≤ ((indexPairs A.length).card : ℚ) := by
    exact_mod_cast card_samePairs_le A
  have ht : ((samePairs B).card : ℚ) ≤ ((indexPairs A.length).card : ℚ) := by
    have h2 := card_samePairs_le B
    rw [← hlen] at h2
    exact_mod_cast h2
  have ha0 : (0 : ℚ) ≤ ((bothSamePairs A B).card : ℚ) := by positivity
  have hu : ((samePairs A).card : ℚ) + ((samePairs B).card : ℚ) ≤
      ((indexPairs A.length).card : ℚ) + ((bothSamePairs A B).card : ℚ) := by
    exact_mod_cast card_union_bound A B hlen
  have hs0 : (0 : ℚ) ≤ ((samePairs A).card : ℚ) := by positivity
  have ht0 : (0 : ℚ) ≤ ((samePairs B).card : ℚ) := by positivity
  rw [hr, le_div_iff hdpos, maxIndex, expectedIndex]
  set sq : ℚ := ((samePairs A).card : ℚ) with hsq
  set tq : ℚ := ((samePairs B).card : ℚ) with htq
  set cq : ℚ := ((indexPairs A.length).card : ℚ) with hcq
  set aq : ℚ := ((bothSamePairs A B).card : ℚ) with haq
  have key : 2 * (sq * tq) ≤ (aq + (sq + tq) / 2) * cq := by
    rcases le_total (sq + tq) cq with hcase | hcase
    · nlinarith [sq_nonneg (sq - tq), mul_nonneg ha0 (le_of_lt hc)]
    · nlinarith [sq_nonneg (sq - tq),
        mul_nonneg (by linarith : (0 : ℚ) ≤ 2 * cq - sq - tq)
          (by linarith : (0 : ℚ) ≤ sq + tq - cq)]
  have key2 : 2 * (sq * tq) / cq ≤ aq + (sq + tq) / 2 := (div_le_iff hc).mpr key
  have key3 : 2 * (sq * tq) / cq = 2 * (sq * tq / cq) := mul_div_assoc 2 _ _
  rw [key3] at key2
  linarith

theorem samePairs_eq_iff {A B : LabelAssignment} (h : A.length = B.length) :
    samePairs A = samePairs B ↔ samePartition A B := by
  constructor
  · intro hset i j hi hj
    rcases lt_trichotomy i j with hij | rfl | hij
    · have hmem : (i, j) ∈ samePairs A ↔ (i, j) ∈ samePairs B := by rw [hset]
      simpa [samePairs, mem_indexPairs, hi, hj, hij, ← h] using hmem
    · simp
    · have hmem : (j, i) ∈ samePairs A ↔ (j, i) ∈ samePairs B := by rw [hset]
      simp only [samePairs, Finset.mem_filter, mem_indexPairs, ← h] at hmem
      constructor
      · intro hx
        exact ((hmem.mp ⟨⟨hj, hi, hij⟩, hx.symm⟩).2).symm
      · intro hx
        exact ((hmem.mpr ⟨⟨hj, hi, hij⟩, hx.symm⟩).2).symm
  · intro hsp
    ext p
    simp only [samePairs, Finset.mem_filter, mem_indexPairs, ← h]
    constructor
    · rintro ⟨⟨ha1, ha2, ha3⟩, ha4⟩
      exact ⟨⟨ha1, ha2, ha3⟩, (hsp p.1 p.2 ha1 ha2).mp ha4⟩
    · rintro ⟨⟨ha1, ha2, ha3⟩, ha4⟩
      exact ⟨⟨ha1, ha2, ha3⟩, (hsp p.1 p.2 ha1 ha2).mpr ha4⟩

theorem pairCount_eq_one_iff {A B : LabelAssignment} {r : ℚ}
    (h : pairCountAgreement A B = .ok r) :
    r = 1 ↔ samePartition A B := by
  obtain ⟨hlen, hn, hne, hr⟩ := pairCountAgreement_ok h
  have hdpos := denominator_pos h
  have ha1 := card_bothSame_le_left A B hlen
  have ha2 := card_bothSame_le_right A B hlen
  rw [hr, div_eq_one_iff_eq (ne_of_gt hdpos), sub_left_inj]
  have step1 : ((bothSamePairs A B).card : ℚ) = maxIndex A B ↔
      2 * (bothSamePairs A B).card = (samePairs A).card + (samePairs B).card := by
    rw [maxIndex, eq_div_iff (by norm_num : (2 : ℚ) ≠ 0)]
    constructor
    · intro hq
      exact_mod_cast (by linarith : ((2 : ℚ)) * ((bothSamePairs A B).card : ℚ) =
        ((samePairs A).card : ℚ) + ((samePairs B).card : ℚ))
    · intro hq
      have hq2 : ((2 : ℚ)) * ((bothSamePairs A B).card : ℚ) =
          ((samePairs A).card : ℚ) + ((samePairs B).card : ℚ) := by exact_mod_cast hq
      linarith
  rw [step1]
  have step2 : 2 * (bothSamePairs A B).card =
      (samePairs A).card + (samePairs B).card ↔
      (bothSamePairs A B).card = (samePairs A).card ∧
        (bothSamePairs A B).card = (samePairs B).card := by omega
  rw [step2]
  have step3 : (bothSamePairs A B).card = (samePairs A).card ∧
      (bothSamePairs A B).card = (samePairs B).card ↔
      samePairs A = samePairs B := by
    constructor
    · rintro ⟨hx, hy⟩
      rw [bothSamePairs_inter A B hlen] at hx hy
      have hxs : samePairs A ∩ samePairs B = samePairs A :=
        Finset.eq_of_subset_of_card_le Finset.inter_subset_left (le_of_eq hx.symm)
      have hys : samePairs A ∩ samePairs B = samePairs B :=
        Finset.eq_of_subset_of_card_le Finset.inter_subset_right (le_of_eq hy.symm)
      rw [← hxs, hys]
    · intro hxy
      rw [bothSamePairs_inter A B hlen, hxy, Finset.inter_self]
      exact ⟨rfl, rfl⟩
  rw [step3]
  exact samePairs_eq_iff hlen

/-! ### Symmetry in the two arguments -/

theorem bothSamePairs_comm (A B : LabelAssignment) (h : A.length = B.length) :
    bothSamePairs A B = bothSamePairs B A := by
  ext p
  simp only [bothSamePairs, Finset.mem_filter, h]
  tauto

theorem expectedIndex_comm (A B : LabelAssignment) (h : A.length = B.length) :
    expectedIndex A B = expectedIndex B A := by
  rw [expectedIndex, expectedIndex, h, mul_comm]

theorem maxIndex_comm (A B : LabelAssignment) :
    maxIndex A B = maxIndex B A := by
  rw [maxIndex, maxIndex, add_comm]

theorem pairCountAgreement_comm (A B : LabelAssignment)
    (h : A.length = B.length) :
    pairCountAgreement A B = pairCountAgreement B A := by
  rw [pairCountAgreement, pairCountAgreement, expectedIndex_comm A B h,
    maxIndex_comm A B, bothSamePairs_comm A B h, h]

/-! ### Invariance under relabeling -/

theorem getD_map_lt (A : LabelAssignment) (π : ℤ → ℤ) {i : ℕ}
    (hi : i < A.length) : (A.map π).getD i 0 = π (A.getD i 0) := by
  rw [List.getD_eq_getElem _ _ (by simpa using hi), List.getD_eq_getElem _ _ hi,
    List.getElem_map]

theorem getD_mem (A : LabelAssignment) {i : ℕ} (hi : i < A.length) :
    A.getD i 0 ∈ A := by
  rw [List.getD_eq_getElem _ _ hi]
  exact List.getElem_mem hi

theorem samePairs_map (A : LabelAssignment) (π : ℤ → ℤ)
    (hinj : ∀ x ∈ A, ∀ y ∈ A, π x = π y → x = y) :
    samePairs (A.map π) = samePairs A := by
  ext p
  simp only [samePairs, Finset.mem_filter, List.length_map]
  constructor
  · rintro ⟨hp, heq⟩
    have h1 : p.1 < A.length := (mem_indexPairs.mp hp).1
    have h2 : p.2 < A.length := (mem_indexPairs.mp hp).2.1
    rw [getD_map_lt A π h1, getD_map_lt A π h2] at heq
    exact ⟨hp, hinj _ (getD_mem A h1) _ (getD_mem A h2) heq⟩
  · rintro ⟨hp, heq⟩
    have h1 : p.1 < A.length := (mem_indexPairs.mp hp).1
    have h2 : p.2 < A.length := (mem_indexPairs.mp hp).2.1
    rw [getD_map_lt A π h1, getD_map_lt A π h2]
    exact ⟨hp, congrArg π heq⟩

theorem bothSamePairs_map (A B : LabelAssignment) (π : ℤ → ℤ)
    (hinj : ∀ x ∈ A, ∀ y ∈ A, π x = π y → x = y) :
    bothSamePairs (A.map π) B = bothSamePairs A B := by
  ext p
  simp only [bothSamePairs, Finset.mem_filter, List.length_map]
  constructor
  · rintro ⟨hp, heq, heqB⟩
    have h1 : p.1 < A.length := (mem_indexPairs.mp hp).1
    have h2 : p.2 < A.length := (mem_indexPairs.mp hp).2.1
    rw [getD_map_lt A π h1, getD_map_lt A π h2] at heq
    exact ⟨hp, hinj _ (getD_mem A h1) _ (getD_mem A h2) heq, heqB⟩
  · rintro ⟨hp, heq, heqB⟩
    have h1 : p.1 < A.length := (mem_indexPairs.mp hp).1
    have h2 : p.2 < A.length := (mem_indexPairs.mp hp).2.1
    rw [getD_map_lt A π h1, getD_map_lt A π h2]
    exact ⟨hp, congrArg π heq, heqB⟩

theorem pairCountAgreement_relabel (A B : LabelAssignment) (π : ℤ → ℤ)
    (hinj : ∀ x ∈ A, ∀ y ∈ A, π x = π y → x = y) :
    pairCountAgreement (A.map π) B = pairCountAgreement A B := by
  simp only [pairCountAgreement, expectedIndex, maxIndex,
    samePairs_map A π hinj, bothSamePairs_map A B π hinj, List.length_map]

/-! ### Facts about the contingency table and mutual information -/

theorem zip_self (A : LabelAssignment) : A.zip A = A.map fun x => (x, x) := by
  induction A with
  | nil => rfl
  | cons x xs ih => simp [List.zip_cons_cons, ih]

theorem count_pair_self (A : LabelAssignment) (a : ℤ) :
    (A.map fun x => (x, x)).count (a, a) = A.count a := by
  induction A with
  | nil => simp
  | cons x xs ih =>
    simp only [List.map_cons, List.count_cons, ih]
    by_cases hxa : x = a
    · simp [hxa]
    · simp [hxa, Prod.ext_iff]

theorem contingency_self (A : LabelAssignment) (a b : ℤ) :
    contingency A A a b = if a = b then A.count a else 0 := by
  rw [contingency, zip_self]
  by_cases hab : a = b
  · subst hab
    rw [if_pos rfl]
    exact count_pair_self A a
  · rw [if_neg hab]
    rw [List.count_eq_zero]
    intro hmem
    obtain ⟨x, -, hx⟩ := List.mem_map.mp hmem
    obtain ⟨hx1, hx2⟩ := (Prod.mk.injEq _ _ _ _).mp hx
    exact hab (hx1.symm.trans hx2)

theorem marginalProb_ne_zero {A : LabelAssignment} {a : ℤ} (hA : A ≠ [])
    (ha : a ∈ A) : marginalProb A a ≠ 0 := by
  rw [marginalProb]
  have h1 : A.count a ≠ 0 := by
    have := List.count_pos_iff.mpr ha
    omega
  have h2 : A.length ≠ 0 := fun h => hA (List.length_eq_zero.mp h)
  exact div_ne_zero (by exact_mod_cast h1) (by exact_mod_cast h2)

theorem jointProb_self (A : LabelAssignment) (a : ℤ) :
    jointProb A A a a = marginalProb A a := by
  rw [jointProb, marginalProb, contingency_self, if_pos rfl]

theorem mutualInfo_self (K : Type) [LinearOrderedField K] (log : ℚ → K)
    (A : LabelAssignment) (hA : A ≠ []) :
    mutualInfo K log A A = entropy K log A := by
  rw [mutualInfo, entropy]
  apply Finset.sum_congr rfl
  intro a ha
  have haA : a ∈ A := List.mem_toFinset.mp ha
  have hcnt : A.count a ≠ 0 := by
    have := List.count_pos_iff.mpr haA
    omega
  rw [Finset.sum_eq_single_of_mem a ha]
  · have hcond : ¬contingency A A a a = 0 := by
      rw [contingency_self, if_pos rfl]
      exact hcnt
    rw [if_neg hcond, jointProb_self]
    have hmp := marginalProb_ne_zero hA haA
    have harg : marginalProb A a / (marginalProb A a * marginalProb A a) =
        1 / marginalProb A a := by
      rw [div_mul_eq_div_div, div_self hmp]
    rw [harg]
  · intro b hb hne
    have hcond : contingency A A a b = 0 := by
      rw [contingency_self, if_neg (fun h => hne h.symm)]
    rw [if_pos hcond]

theorem mutualInformationAgreement_self_ok {K : Type} [LinearOrderedField K]
    [DecidableEq K] {log : ℚ → K} {emi : Multiset ℕ → Multiset ℕ → ℕ → K}
    {A : LabelAssignment} {v : K}
    (h : mutualInformationAgreement K log emi A A = .ok v) : v = 1 := by
  rw [mutualInformationAgreement] at h
  split_ifs at h with h1 h2 h3
  all_goals try exact (Except.noConfusion h)
  have hA : A ≠ [] := by
    intro hnil
    apply h2
    subst hnil
    simp
  rw [mutualInfo_self K log A hA, add_self_div_two] at h
  rw [add_self_div_two] at h3
  simp only [Except.ok.injEq] at h
  rw [← h, div_self h3]

theorem count_swap (L : List (ℤ × ℤ)) (a b : ℤ) :
    (L.map Prod.swap).count (b, a) = L.count (a, b) := by
  induction L with
  | nil => simp
  | cons p ps ih =>
    simp only [List.map_cons, List.count_cons, ih]
    by_cases hp : p = (a, b)
    · simp [hp]
    · have hps : ¬(p.swap = (b, a)) := by
        intro hq
        apply hp
        have := congrArg Prod.swap hq
        simpa using this
      simp [hp, hps]

theorem contingency_comm (A B : LabelAssignment) (a b : ℤ) :
    contingency A B a b = contingency B A b a := by
  rw [contingency, contingency, ← List.zip_swap A B]
  exact (count_swap (A.zip B) a b).symm

theorem jointProb_comm (A B : LabelAssignment) (h : A.length = B.length)
    (a b : ℤ) : jointProb A B a b = jointProb B A b a := by
  rw [jointProb, jointProb, contingency_comm A B a b, h]

theorem mutualInfo_comm (K : Type) [LinearOrderedField K] (log : ℚ → K)
    (A B : LabelAssignment) (h : A.length = B.length) :
    mutualInfo K log A B = mutualInfo K log B A := by
  rw [mutualInfo, mutualInfo, Finset.sum_comm]
  apply Finset.sum_congr rfl
  intro b hb
  apply Finset.sum_congr rfl
  intro a ha
  rw [contingency_comm A B a b, jointProb_comm A B h a b,
    mul_comm (marginalProb A a) (marginalProb B b)]

theorem mutualInformationAgreement_comm (K : Type) [LinearOrderedField K]
    [DecidableEq K] (log : ℚ → K) (emi : Multiset ℕ → Multiset ℕ → ℕ → K)
    (A B : LabelAssignment) (h : A.length = B.length)
    (hsym : ∀ r c n, emi r c n = emi c r n) :
    mutualInformationAgreement K log emi A B =
      mutualInformationAgreement K log emi B A := by
  have h1 := mutualInfo_comm K log A B h
  have h3 : ∀ n, emi (rowMargins A) (rowMargins B) n =
      emi (rowMargins B) (rowMargins A) n := fun n => hsym _ _ n
  simp only [mutualInformationAgreement, h1, h3,
    add_comm (entropy K log A) (entropy K log B), h, or_comm]

theorem count_map_eq_of_iff {α β : Type} [BEq α] [LawfulBEq α] [BEq β]
    [LawfulBEq β] (f : α → β) (l : List α) (a : α)
    (h : ∀ x ∈ l, (f x = f a ↔ x = a)) :
    (l.map f).count (f a) = l.count a := by
  induction l with
  | nil => simp
  | cons y ys ih =>
    have hy := h y (List.mem_cons_self y ys)
    simp only [List.map_cons, List.count_cons,
      ih (fun x hx => h x (List.mem_cons_of_mem y hx))]
    by_cases hxy : y = a
    · simp [hxy]
    · have hfy : ¬(f y = f a) := fun hq => hxy (hy.mp hq)
      simp [hxy, hfy]

theorem count_map_relabel {A : LabelAssignment} {π : ℤ → ℤ} {a : ℤ}
    (hinj : ∀ x ∈ A, ∀ y ∈ A, π x = π y → x = y) (ha : a ∈ A) :
    (A.map π).count (π a) = A.count a :=
  count_map_eq_of_iff π A a
    (fun x hx => ⟨fun hq => hinj x hx a ha hq, fun hq => by rw [hq]⟩)

theorem contingency_relabel {A B : LabelAssignment} {π : ℤ → ℤ} {a b : ℤ}
    (hinj : ∀ x ∈ A, ∀ y ∈ A, π x = π y → x = y) (ha : a ∈ A) :
    contingency (A.map π) B (π a) b = contingency A B a b := by
  rw [contingency, contingency, List.zip_map_left]
  exact count_map_eq_of_iff (Prod.map π id) (A.zip B) (a, b)
    (fun p hp => by
      constructor
      · intro hq
        obtain ⟨hq1, hq2⟩ := Prod.ext_iff.mp hq
        simp only [Prod.map_fst, Prod.map_snd, id_eq] at hq1 hq2
        have hp1 : p.1 ∈ A :=
          (List.of_mem_zip (a := p.1) (b := p.2)
            (by rw [Prod.mk.eta]; exact hp)).1
        exact Prod.ext_iff.mpr ⟨hinj p.1 hp1 a ha hq1, hq2⟩
      · intro hq
        rw [hq])

theorem toFinset_map_eq (l : LabelAssignment) (f : ℤ → ℤ) :
    (l.map f).toFinset = l.toFinset.image f := by
  ext x
  simp

theorem marginalProb_relabel {A : LabelAssignment} {π : ℤ → ℤ} {a : ℤ}
    (hinj : ∀ x ∈ A, ∀ y ∈ A, π x = π y → x = y) (ha : a ∈ A) :
    marginalProb (A.map π) (π a) = marginalProb A a := by
  rw [marginalProb, marginalProb, count_map_relabel hinj ha, List.length_map]

theorem jointProb_relabel {A B : LabelAssignment} {π : ℤ → ℤ} {a b : ℤ}
    (hinj : ∀ x ∈ A, ∀ y ∈ A, π x = π y → x = y) (ha : a ∈ A) :
    jointProb (A.map π) B (π a) b = jointProb A B a b := by
  rw [jointProb, jointProb, contingency_relabel hinj ha, List.length_map]

theorem entropy_relabel (K : Type) [LinearOrderedField K] (log : ℚ → K)
    (A : LabelAssignment) (π : ℤ → ℤ)
    (hinj : ∀ x ∈ A, ∀ y ∈ A, π x = π y → x = y) :
    entropy K log (A.map π) = entropy K log A := by
  rw [entropy, entropy, toFinset_map_eq,
    Finset.sum_image (fun x hx y hy hxy =>
      hinj x (List.mem_toFinset.mp hx) y (List.mem_toFinset.mp hy) hxy)]
  apply Finset.sum_congr rfl
  intro a ha
  rw [marginalProb_relabel hinj (List.mem_toFinset.mp ha)]

theorem mutualInfo_relabel (K : Type) [LinearOrderedField K] (log : ℚ → K)
    (A B : LabelAssignment) (π : ℤ → ℤ)
    (hinj : ∀ x ∈ A, ∀ y ∈ A, π x = π y → x = y) :
    mutualInfo K log (A.map π) B = mutualInfo K log A B := by
  rw [mutualInfo, mutualInfo, toFinset_map_eq,
    Finset.sum_image (fun x hx y hy hxy =>
      hinj x (List.mem_toFinset.mp hx) y (List.mem_toFinset.mp hy) hxy)]
  apply Finset.sum_congr rfl
  intro a ha
  apply Finset.sum_congr rfl
  intro b hb
  have haA := List.mem_toFinset.mp ha
  rw [contingency_relabel hinj haA, jointProb_relabel hinj haA,
    marginalProb_relabel hinj haA]

theorem rowMargins_relabel {A : LabelAssignment} {π : ℤ → ℤ}
    (hinj : ∀ x ∈ A, ∀ y ∈ A, π x = π y → x = y) :
    rowMargins (A.map π) = rowMargins A := by
  rw [rowMargins, rowMargins, toFinset_map_eq,
    Finset.image_val_of_injOn (fun x hx y hy hxy =>
      hinj x (List.mem_toFinset.mp hx) y (List.mem_toFinset.mp hy) hxy),
    Multiset.map_map]
  apply Multiset.map_congr rfl
  intro a ha
  simp only [Function.comp_apply]
  exact count_map_relabel hinj (List.mem_toFinset.mp (Finset.mem_def.mpr ha))

theorem toFinset_card_relabel {A : LabelAssignment} {π : ℤ → ℤ}
    (hinj : ∀ x ∈ A, ∀ y ∈ A, π x = π y → x = y) :
    (A.map π).toFinset.card = A.toFinset.card := by
  rw [toFinset_map_eq]
  exact Finset.card_image_of_injOn (fun x hx y hy hxy =>
    hinj x (List.mem_toFinset.mp hx) y (List.mem_toFinset.mp hy) hxy)

theorem mutualInformationAgreement_relabel (K : Type) [LinearOrderedField K]
    [DecidableEq K] (log : ℚ → K) (emi : Multiset ℕ → Multiset ℕ → ℕ → K)
    (A B : LabelAssignment) (π : ℤ → ℤ)
    (hinj : ∀ x ∈ A, ∀ y ∈ A, π x = π y → x = y) :
    mutualInformationAgreement K log emi (A.map π) B =
      mutualInformationAgreement K log emi A B := by
  simp only [mutualInformationAgreement, List.length_map,
    entropy_relabel K log A π hinj, mutualInfo_relabel K log A B π hinj,
    rowMargins_relabel hinj, toFinset_card_relabel hinj]

/-! ### The notebook's pairwise evaluation loop -/

theorem pairCountAgreement_ne_incompatible (A B : LabelAssignment)
    (h : A.length = B.length) :
    pairCountAgreement A B ≠ .error .incompatibleAssignments := by
  intro hbad
  rw [pairCountAgreement] at hbad
  split_ifs at hbad with h1 h2 h3
  · exact h1 h
  all_goals simp at hbad

theorem mutualInformationAgreement_ne_incompatible (K : Type)
    [LinearOrderedField K] [DecidableEq K] (log : ℚ → K)
    (emi : Multiset ℕ → Multiset ℕ → ℕ → K) (A B : LabelAssignment)
    (h : A.length = B.length) :
    mutualInformationAgreement K log emi A B ≠
      .error .incompatibleAssignments := by
  intro hbad
  rw [mutualInformationAgreement] at hbad
  split_ifs at hbad with h1 h2 h3
  · exact h1 h
  all_goals simp at hbad

theorem length_pairsOf {α : Type} (l : List α) :
    (pairsOf l).length = Nat.choose l.length 2 := by
  induction l with
  | nil => rfl
  | cons x xs ih =>
    simp only [pairsOf, List.length_append, List.length_map, ih,
      List.length_cons, Nat.choose_succ_succ, Nat.choose_one_right]
    try omega

theorem mem_pairsOf {α : Type} {l : List α} {p : α × α}
    (hp : p ∈ pairsOf l) : p.1 ∈ l ∧ p.2 ∈ l := by
  induction l with
  | nil => simp [pairsOf] at hp
  | cons x xs ih =>
    simp only [pairsOf, List.mem_append, List.mem_map] at hp
    rcases hp with ⟨y, hy, rfl⟩ | hp
    · exact ⟨List.mem_cons_self x xs, List.mem_cons_of_mem x hy⟩
    · obtain ⟨h1, h2⟩ := ih hp
      exact ⟨List.mem_cons_of_mem x h1, List.mem_cons_of_mem x h2⟩

/-! ### The claims -/

/-- Claim C1: for the degenerate inputs A = [0,0,0,0] and B = [0,0,0,0]
(every sample in a single cluster on both sides), both `pairCountAgreement`
and `mutualInformationAgreement` signal a `DegenerateInputError` rather than
silently returning 1.0 or an undefined value: the zero normalizer is guarded
by an error, not a fallback value, for every model of the logarithm and of
the expected mutual information. -/
theorem claim1_degenerate_single_cluster (K : Type) [LinearOrderedField K]
    [DecidableEq K] (log : ℚ → K) (emi : Multiset ℕ → Multiset ℕ → ℕ → K) :
    pairCountAgreement [0, 0, 0, 0] [0, 0, 0, 0] = .error .degenerateInput ∧
    mutualInformationAgreement K log emi [0, 0, 0, 0] [0, 0, 0, 0] =
      .error .degenerateInput := by
  constructor
  · have hs : (samePairs [0, 0, 0, 0]).card = 6 := by decide
    have hc : (indexPairs 4).card = 6 := by decide
    rw [pairCountAgreement]
    norm_num [maxIndex, expectedIndex, hs, hc]
  · have h1 : ([0, 0, 0, 0] : LabelAssignment).toFinset.card = 1 := by decide
    rw [mutualInformationAgreement]
    norm_num [h1]

/-- Claim C2: for every pair of label assignments of unequal lengths, both
`pairCountAgreement` and `mutualInformationAgreement` signal an
`IncompatibleAssignmentsError` immediately, with no partial comparison
attempted. -/
theorem claim2_length_mismatch (A B : LabelAssignment)
    (h : A.length ≠ B.length) (K : Type) [LinearOrderedField K]
    [DecidableEq K] (log : ℚ → K) (emi : Multiset ℕ → Multiset ℕ → ℕ → K) :
    pairCountAgreement A B = .error .incompatibleAssignments ∧
    mutualInformationAgreement K log emi A B =
      .error .incompatibleAssignments := by
  constructor
  · rw [pairCountAgreement, if_pos h]
  · rw [mutualInformationAgreement, if_pos h]

/-- Claim C2 witness: A of length 3 and B of length 5 signal the error. -/
theorem claim2_length_mismatch_witness :
    pairCountAgreement [0, 0, 0] [0, 0, 0, 0, 0] =
      .error .incompatibleAssignments ∧
    mutualInformationAgreement ℚ id (fun _ _ _ => 0) [0, 0, 0]
      [0, 0, 0, 0, 0] = .error .incompatibleAssignments :=
  claim2_length_mismatch [0, 0, 0] [0, 0, 0, 0, 0] (by decide) ℚ id
    (fun _ _ _ => 0)

/-- Claim C3 counterexample: for A = [0,0,1,1] and B = [0,1,0,1] the raw
(uncorrected) Rand statistic, as the spec itself defines it
(same-in-both pairs plus different-in-both pairs, over all pairs), is not 0:
two of the six sample pairs agree on difference, giving 1/3. -/
theorem claim3_raw_rand_not_zero :
    rawRandStatistic [0, 0, 1, 1] [0, 1, 0, 1] ≠ 0 := by
  have ha : (bothSamePairs [0, 0, 1, 1] [0, 1, 0, 1]).card = 0 := by decide
  have hd : (bothDifferentPairs [0, 0, 1, 1] [0, 1, 0, 1]).card = 2 := by
    decide
  have hc : (indexPairs 4).card = 6 := by decide
  rw [rawRandStatistic]
  norm_num [ha, hd, hc]

/-- Claim C3 (amended): for A = [0,0,1,1] and B = [0,1,0,1] the contingency
table is `{(0,0):1, (0,1):1, (1,0):1, (1,1):1}` (four cells of count 1 over
the 4 zipped samples), the raw Rand statistic equals 1/3 (not 0 as claimed:
the two pairs split in both assignments agree on difference), and
`pairCountAgreement` returns exactly -1/2, the value determined by the
chance-correction formula. -/
theorem claim3_crosscut_exact_values :
    contingency [0, 0, 1, 1] [0, 1, 0, 1] 0 0 = 1 ∧
    contingency [0, 0, 1, 1] [0, 1, 0, 1] 0 1 = 1 ∧
    contingency [0, 0, 1, 1] [0, 1, 0, 1] 1 0 = 1 ∧
    contingency [0, 0, 1, 1] [0, 1, 0, 1] 1 1 = 1 ∧
    (([0, 0, 1, 1] : LabelAssignment).zip [0, 1, 0, 1]).length = 4 ∧
    rawRandStatistic [0, 0, 1, 1] [0, 1, 0, 1] = 1 / 3 ∧
    pairCountAgreement [0, 0, 1, 1] [0, 1, 0, 1] = .ok (-(1 : ℚ) / 2) := by
  have ha : (bothSamePairs [0, 0, 1, 1] [0, 1, 0, 1]).card = 0 := by decide
  have hd : (bothDifferentPairs [0, 0, 1, 1] [0, 1, 0, 1]).card = 2 := by
    decide
  have hc : (indexPairs 4).card = 6 := by decide
  have hs : (samePairs [0, 0, 1, 1]).card = 2 := by decide
  have ht : (samePairs ([0, 1, 0, 1] : LabelAssignment)).card = 2 := by decide
  refine ⟨by decide, by decide, by decide, by decide, by decide, ?_, ?_⟩
  · rw [rawRandStatistic]
    norm_num [ha, hd, hc]
  · rw [pairCountAgreement]
    norm_num [maxIndex, expectedIndex, hs, ht, ha, hc]

/-- Claim C4: for equal-length assignments A and B and any map π that is
injective on the labels occurring in A (a relabeling bijection of A's label
set), both scores are unchanged when A is relabeled by π: the scores are
invariant to the numeric identity of cluster labels. -/
theorem claim4_relabel_invariance (A B : LabelAssignment) (π : ℤ → ℤ)
    (hlen : A.length = B.length)
    (hinj : ∀ x ∈ A, ∀ y ∈ A, π x = π y → x = y) (K : Type)
    [LinearOrderedField K] [DecidableEq K] (log : ℚ → K)
    (emi : Multiset ℕ → Multiset ℕ → ℕ → K) :
    pairCountAgreement (A.map π) B = pairCountAgreement A B ∧
    mutualInformationAgreement K log emi (A.map π) B =
      mutualInformationAgreement K log emi A B :=
  ⟨pairCountAgreement_relabel A B π hinj,
   mutualInformationAgreement_relabel K log emi A B π hinj⟩

/-- Claim C4 witness: shifting every label of [0,1] by one leaves both
scores against [0,0] unchanged. -/
theorem claim4_relabel_invariance_witness :
    pairCountAgreement (([0, 1] : LabelAssignment).map (fun x => x + 1))
        [0, 0] = pairCountAgreement [0, 1] [0, 0] ∧
    mutualInformationAgreement ℚ id (fun _ _ _ => 0)
        (([0, 1] : LabelAssignment).map (fun x => x + 1)) [0, 0] =
      mutualInformationAgreement ℚ id (fun _ _ _ => 0) [0, 1] [0, 0] :=
  claim4_relabel_invariance [0, 1] [0, 0] (fun x => x + 1) (by decide)
    (fun x _ y _ hxy => by simpa using hxy) ℚ id (fun _ _ _ => 0)

/-- Claim C5: every successfully computed pair-count agreement lies in
[-1, 1], and it equals 1 exactly when the two assignments induce identical
partitions of the samples up to relabeling. -/
theorem claim5_bounded_and_one_iff (A B : LabelAssignment) (r : ℚ)
    (h : pairCountAgreement A B = .ok r) :
    (-1 ≤ r ∧ r ≤ 1) ∧ (r = 1 ↔ samePartition A B) :=
  ⟨⟨neg_one_le_pairCountAgreement h, pairCountAgreement_le_one h⟩,
   pairCount_eq_one_iff h⟩

/-- Claim C5 witness: at A = [0,0,1,1], B = [0,1,0,1] the score -1/2 is in
range and differs from 1 exactly as the partitions differ. -/
theorem claim5_bounded_and_one_iff_witness :
    (-1 ≤ (-(1 : ℚ) / 2) ∧ (-(1 : ℚ) / 2) ≤ 1) ∧
    ((-(1 : ℚ) / 2) = 1 ↔ samePartition [0, 0, 1, 1] [0, 1, 0, 1]) :=
  claim5_bounded_and_one_iff [0, 0, 1, 1] [0, 1, 0, 1] (-(1 : ℚ) / 2) (by
    have hs : (samePairs [0, 0, 1, 1]).card = 2 := by decide
    have ht : (samePairs ([0, 1, 0, 1] : LabelAssignment)).card = 2 := by
      decide
    have ha : (bothSamePairs [0, 0, 1, 1] [0, 1, 0, 1]).card = 0 := by decide
    have hc : (indexPairs 4).card = 6 := by decide
    rw [pairCountAgreement]
    norm_num [maxIndex, expectedIndex, hs, ht, ha, hc])

/-- Claim C6: whenever comparing a non-degenerate assignment with itself
succeeds (no degeneracy error), both scores are exactly 1. -/
theorem claim6_self_comparison (A : LabelAssignment) (K : Type)
    [LinearOrderedField K] [DecidableEq K] (log : ℚ → K)
    (emi : Multiset ℕ → Multiset ℕ → ℕ → K) (r : ℚ) (v : K)
    (hr : pairCountAgreement A A = .ok r)
    (hv : mutualInformationAgreement K log emi A A = .ok v) :
    r = 1 ∧ v = 1 := by
  constructor
  · rw [pairCount_eq_one_iff hr]
    intro i j hi hj
    exact Iff.rfl
  · exact mutualInformationAgreement_self_ok hv

/-- Claim C6 witness: comparing [0,0,1] with itself yields 1 for both
scores (instantiating the logarithm model by the identity and the expected
mutual information by 0). -/
theorem claim6_self_comparison_witness : (1 : ℚ) = 1 ∧ (1 : ℚ) = 1 :=
  claim6_self_comparison [0, 0, 1] ℚ id (fun _ _ _ => 0) 1 1
    (by
      have hs : (samePairs [0, 0, 1]).card = 1 := by decide
      have ha : (bothSamePairs [0, 0, 1] [0, 0, 1]).card = 1 := by decide
      have hc : (indexPairs 3).card = 3 := by decide
      rw [pairCountAgreement]
      norm_num [maxIndex, expectedIndex, hs, ha, hc])
    (by
      have h1 : ([0, 0, 1] : LabelAssignment).toFinset = {0, 1} := by decide
      have h2 : ([0, 0, 1] : LabelAssignment).toFinset.card = 2 := by decide
      have hc0 : contingency [0, 0, 1] [0, 0, 1] 0 0 = 2 := by decide
      have hc01 : contingency [0, 0, 1] [0, 0, 1] 0 1 = 0 := by decide
      have hc10 : contingency [0, 0, 1] [0, 0, 1] 1 0 = 0 := by decide
      have hc11 : contingency [0, 0, 1] [0, 0, 1] 1 1 = 1 := by decide
      have hm0 : marginalProb [0, 0, 1] 0 = 2 / 3 := by
        rw [marginalProb]; norm_num
      have hm1 : marginalProb [0, 0, 1] 1 = 1 / 3 := by
        rw [marginalProb]; norm_num
      rw [mutualInformationAgreement]
      norm_num [h1, h2, entropy, mutualInfo, jointProb, Finset.sum_insert,
        Finset.sum_singleton, hc0, hc01, hc10, hc11, hm0, hm1])

/-- Claim C7: for equal-length assignments the two scores are symmetric in
their arguments (for the mutual-information score, under the null model's
symmetry in the two margins, a property of the spec's random-labeling
model). -/
theorem claim7_symmetry (A B : LabelAssignment) (h : A.length = B.length)
    (K : Type) [LinearOrderedField K] [DecidableEq K] (log : ℚ → K)
    (emi : Multiset ℕ → Multiset ℕ → ℕ → K)
    (hsym : ∀ r c n, emi r c n = emi c r n) :
    pairCountAgreement A B = pairCountAgreement B A ∧
    mutualInformationAgreement K log emi A B =
      mutualInformationAgreement K log emi B A :=
  ⟨pairCountAgreement_comm A B h,
   mutualInformationAgreement_comm K log emi A B h hsym⟩

/-- Claim C7 witness: symmetry at A = [0,0,1,1], B = [0,1,0,1]. -/
theorem claim7_symmetry_witness :
    pairCountAgreement [0, 0, 1, 1] [0, 1, 0, 1] =
      pairCountAgreement [0, 1, 0, 1] [0, 0, 1, 1] ∧
    mutualInformationAgreement ℚ id (fun _ _ _ => 0) [0, 0, 1, 1]
        [0, 1, 0, 1] =
      mutualInformationAgreement ℚ id (fun _ _ _ => 0) [0, 1, 0, 1]
        [0, 0, 1, 1] :=
  claim7_symmetry [0, 0, 1, 1] [0, 1, 0, 1] (by decide) ℚ id
    (fun _ _ _ => 0) (fun _ _ _ => rfl)

/-- Claim C8: for A = [0,0,1,1] and B = [1,1,0,0], `pairCountAgreement`
returns exactly 1: perfect agreement despite different label numbers. -/
theorem claim8_perfect_despite_labels :
    pairCountAgreement [0, 0, 1, 1] [1, 1, 0, 0] = .ok 1 := by
  have hs : (samePairs [0, 0, 1, 1]).card = 2 := by decide
  have ht : (samePairs ([1, 1, 0, 0] : LabelAssignment)).card = 2 := by decide
  have ha : (bothSamePairs [0, 0, 1, 1] [1, 1, 0, 0]).card = 2 := by decide
  have hc : (indexPairs 4).card = 6 := by decide
  rw [pairCountAgreement]
  norm_num [maxIndex, expectedIndex, hs, ht, ha, hc]

/-- Claim C9: for equal-length assignments with fewer than 2 samples,
`pairCountAgreement` signals a `DegenerateInputError` (the set of sample
pairs is empty, so the pair count `N·(N−1)/2` is a zero denominator). -/
theorem claim9_too_few_samples (A B : LabelAssignment)
    (hlen : A.length = B.length) (hN : A.length < 2) :
    pairCountAgreement A B = .error .degenerateInput ∧
    (indexPairs A.length).card = 0 := by
  constructor
  · rw [pairCountAgreement,
      if_neg (show ¬A.length ≠ B.length from fun hq => hq hlen), if_pos hN]
  · rw [Finset.card_eq_zero, Finset.eq_empty_iff_forall_not_mem]
    intro p hp
    obtain ⟨h1, h2, h3⟩ := mem_indexPairs.mp hp
    omega

/-- Claim C9 witness: two one-sample assignments. -/
theorem claim9_too_few_samples_witness :
    pairCountAgreement [0] [0] = .error .degenerateInput ∧
    (indexPairs ([0] : LabelAssignment).length).card = 0 :=
  claim9_too_few_samples [0] [0] rfl (by decide)

/-- Claim C10: in the notebook's evaluation step, if every fitted model's
label array has the length of the one sample population (all models were
fitted on the same matrix X), then a list of 4 models yields exactly
C(4,2) = 6 unordered pairs, and no score in the pairwise report is an
`IncompatibleAssignmentsError`: that branch is unreachable. -/
theorem claim10_pairwise_loop_safe (K : Type) [LinearOrderedField K]
    [DecidableEq K] (log : ℚ → K) (emi : Multiset ℕ → Multiset ℕ → ℕ → K)
    (models : List FittedModel) (n : ℕ)
    (hfit : ∀ m ∈ models, m.labels_.length = n) :
    (models.length = 4 → (pairsOf models).length = 6) ∧
    ∀ q ∈ pairwiseAgreementReport K log emi models,
      q.1 ≠ .error .incompatibleAssignments ∧
      q.2 ≠ .error .incompatibleAssignments := by
  constructor
  · intro h4
    rw [length_pairsOf, h4]
    decide
  · intro q hq
    obtain ⟨p, hp, rfl⟩ := List.mem_map.mp hq
    obtain ⟨hp1, hp2⟩ := mem_pairsOf hp
    have hlen : p.1.labels_.length = p.2.labels_.length := by
      rw [hfit p.1 hp1, hfit p.2 hp2]
    exact ⟨pairCountAgreement_ne_incompatible _ _ hlen,
      mutualInformationAgreement_ne_incompatible K log emi _ _ hlen⟩

/-- Claim C10 witness: four concrete fitted models over three samples. -/
theorem claim10_pairwise_loop_safe_witness :
    (([⟨[0, 0, 1]⟩, ⟨[0, 1, 1]⟩, ⟨[1, 1, 0]⟩, ⟨[2, 0, 1]⟩] :
        List FittedModel).length = 4 →
      (pairsOf ([⟨[0, 0, 1]⟩, ⟨[0, 1, 1]⟩, ⟨[1, 1, 0]⟩, ⟨[2, 0, 1]⟩] :
        List FittedModel)).length = 6) ∧
    ∀ q ∈ pairwiseAgreementReport ℚ id (fun _ _ _ => 0)
        [⟨[0, 0, 1]⟩, ⟨[0, 1, 1]⟩, ⟨[1, 1, 0]⟩, ⟨[2, 0, 1]⟩],
      q.1 ≠ .error .incompatibleAssignments ∧
      q.2 ≠ .error .incompatibleAssignments :=
  claim10_pairwise_loop_safe ℚ id (fun _ _ _ => 0)
    [⟨[0, 0, 1]⟩, ⟨[0, 1, 1]⟩, ⟨[1, 1, 0]⟩, ⟨[2, 0, 1]⟩] 3 (by decide)
